import Mathlib

/-!
# Verification of the cloudability-reporting core

Shallow embedding of the repository's two core modules:

* `cloudability.py` — the query/result typing layer: the measure catalog
  (`Measures`), the filter builder (`Request.make_filter`), the value
  converter (`Request.convert`) and the result normalizer
  (`Request._request_result_to_dict`).
* `main.py` — the cost attribution engine (`pr_costs`): per-resource rogue
  adjustment, grouping with sums, outer join, NaN fill, net adjustment and
  the final sort by `Cost`.

Python floats are modelled as rationals (`ℚ`), Python dicts as association
lists with insertion-order semantics (`dictSet` updates in place or appends
at the end), and raised exceptions as `Except` errors.  The numeric parsing
performed by the builtins `float`/`int` on strings is modelled by a decimal
parser (`parseFloat?` / `parseInt?`): sign, digits and an optional single
decimal point for `float`; sign and digits for `int`.
-/

/-- Kinds of exceptions the embedded code can raise.  The Python code uses
`RuntimeError` with distinct messages for catalog misses, unsupported
operators and unsupported types, `ValueError` from `float()`/`int()`,
`KeyError` from dict subscripts and `AttributeError` from reading an
attribute that was never assigned. -/
inductive PyErr where
  | notFound
  | unsupportedOperator
  | unsupportedType
  | valueError
  | keyError
  | attributeError
deriving DecidableEq, Repr

/-- A loosely-typed value as it appears in a raw API row or a typed column:
Python `str`, `float` or `int`. -/
inductive PyVal where
  | str (s : String)
  | float (q : ℚ)
  | int (n : ℤ)
deriving DecidableEq, Repr

/-! ## Python dict model: association lists with insertion-order update -/

/-- Dict lookup `d[k]`: first binding of `k`, if any. -/
def dictGet {α : Type} : List (String × α) → String → Option α
  | [], _ => none
  | (k', v) :: rest, k => if k' = k then some v else dictGet rest k

/-- Dict assignment `d[k] = v`: update in place when `k` is bound, otherwise
append the new binding at the end (Python dict insertion order). -/
def dictSet {α : Type} : List (String × α) → String → α → List (String × α)
  | [], k, v => [(k, v)]
  | (k', v') :: rest, k, v =>
    if k' = k then (k, v) :: rest else (k', v') :: dictSet rest k v

/-- The keys of a dict, in binding order. -/
def keysOf {α : Type} (d : List (String × α)) : List String := d.map Prod.fst

/-! ## Numeric parsing (model of `float(value)` and `int(value)`) -/

/-- Value of a digit string, most significant digit first. -/
def digitsVal : List Char → ℕ
  | [] => 0
  | c :: cs => (c.toNat - '0'.toNat) * 10 ^ cs.length + digitsVal cs

/-- Parse an optional sign, returning the sign as a rational factor and the
remaining characters. -/
def splitSign : List Char → ℚ × List Char
  | '-' :: cs => (-1, cs)
  | '+' :: cs => (1, cs)
  | cs => (1, cs)

/-- Decimal-literal parser modelling Python `float(s)`: optional sign, then
digits with at most one decimal point and at least one digit. -/
def parseFloat? (s : String) : Option ℚ :=
  let (sign, cs) := splitSign s.data
  match cs.splitOn '.' with
  | [intPart] =>
    if intPart ≠ [] ∧ intPart.all Char.isDigit then
      some (sign * digitsVal intPart)
    else none
  | [intPart, fracPart] =>
    if (intPart ≠ [] ∨ fracPart ≠ []) ∧ intPart.all Char.isDigit ∧
        fracPart.all Char.isDigit then
      some (sign * (digitsVal intPart + digitsVal fracPart / 10 ^ fracPart.length))
    else none
  | _ => none

/-- Integer-literal parser modelling Python `int(s)`: optional sign then a
nonempty digit string; a fractional literal such as `"3.5"` is rejected. -/
def parseInt? (s : String) : Option ℤ :=
  let (sign, cs) := splitSign s.data
  if cs ≠ [] ∧ cs.all Char.isDigit then
    some (if sign = -1 then -(digitsVal cs : ℤ) else (digitsVal cs : ℤ))
  else none

/-- Model of the builtin `float(value)`: numbers pass through (ints are
widened), strings are parsed; `none` models a raised `ValueError`. -/
def pyFloat : PyVal → Option ℚ
  | .float q => some q
  | .int n => some (n : ℚ)
  | .str s => parseFloat? s

/-- Truncation toward zero, as Python `int(float)` does. -/
def truncQ (q : ℚ) : ℤ := if 0 ≤ q then ⌊q⌋ else ⌈q⌉

/-- Model of the builtin `int(value)`: ints pass through, floats truncate
toward zero, strings are parsed strictly; `none` models a `ValueError`. -/
def pyInt : PyVal → Option ℤ
  | .int n => some n
  | .float q => some (truncQ q)
  | .str s => parseInt? s

/-- Model of the builtin `str(value)`: strings pass through, numbers are
rendered. -/
def pyStr : PyVal → String
  | .str s => s
  | .int n => toString n
  | .float q => toString q

/-! ## `Request.convert` -/

/-- Builtin `float(value)` wrapped in the exception model. -/
def floatConv (v : PyVal) : Except PyErr PyVal :=
  match pyFloat v with
  | some q => .ok (.float q)
  | none => .error .valueError

/-- Builtin `int(value)` wrapped in the exception model. -/
def intConv (v : PyVal) : Except PyErr PyVal :=
  match pyInt v with
  | some n => .ok (.int n)
  | none => .error .valueError

/-- Model of `Request.convert(tp, value)` from `cloudability.py`: dispatch on the
declared type tag, with a trailing `raise RuntimeError("Unsupported type")`. -/
def convert (tp : String) (v : PyVal) : Except PyErr PyVal :=
  if tp = "float" then floatConv v
  else if tp = "date" then .ok (.str (pyStr v))
  else if tp = "percentage" then floatConv v
  else if tp = "integer" then intConv v
  else if tp = "currency" then floatConv v
  else if tp = "string" then .ok (.str (pyStr v))
  else .error .unsupportedType

/-! ## `Request.make_filter` and `urllib.parse.quote` -/

/-- The fixed operator whitelist from `Request.make_filter`. -/
def filterOperators : List String :=
  ["!=@", "!=", "<=", "<", "=@", "[]!=", "[]=", "==", ">", "===", "!==", ">="]

/-- Bytes `urllib.parse.quote` leaves unescaped with the default
`safe='/'`: ASCII letters, digits, `_ . - ~` and `/`. -/
def isUrlSafe (b : UInt8) : Bool :=
  (65 ≤ b.toNat && b.toNat ≤ 90) || (97 ≤ b.toNat && b.toNat ≤ 122) ||
  (48 ≤ b.toNat && b.toNat ≤ 57) ||
  b.toNat = 95 || b.toNat = 46 || b.toNat = 45 || b.toNat = 126 || b.toNat = 47

/-- Uppercase hexadecimal digit. -/
def hexDigit (n : ℕ) : Char :=
  if n < 10 then Char.ofNat ('0'.toNat + n) else Char.ofNat ('A'.toNat + (n - 10))

/-- Percent-encode a single byte, or keep it verbatim when safe. -/
def quoteByte (b : UInt8) : String :=
  if isUrlSafe b then String.singleton (Char.ofNat b.toNat)
  else String.singleton '%' ++ String.singleton (hexDigit (b.toNat / 16)) ++
    String.singleton (hexDigit (b.toNat % 16))

/-- Model of `urllib.parse.quote(s)` (UTF-8 encode, escape unsafe bytes). -/
def urlQuote (s : String) : String :=
  String.join (s.data.map (fun c => String.join ((String.utf8EncodeChar c).map quoteByte)))

/-- Model of `Request.make_filter(key, operator, value)`: raise on an operator
outside the whitelist, otherwise quote the concatenation. -/
def makeFilter (key operator value : String) : Except PyErr String :=
  if operator ∉ filterOperators then .error .unsupportedOperator
  else .ok (urlQuote (key ++ operator ++ value))

/-! ## Measure catalog -/

/-- One entry of the measure catalog (`measures.json`). -/
structure Measure where
  label : String
  name : String
  data_type : String
deriving DecidableEq, Repr

/-- Model of `Measures.name_from_label`: first measure with the given label. -/
def nameFromLabel : List Measure → String → Except PyErr String
  | [], _ => .error .notFound
  | m :: rest, l => if m.label = l then .ok m.name else nameFromLabel rest l

/-- Model of `Measures.type_from_name`: first measure with the given name. -/
def typeFromName : List Measure → String → Except PyErr String
  | [], _ => .error .notFound
  | m :: rest, n => if m.name = n then .ok m.data_type else typeFromName rest n

/-! ## `Request` construction and result normalization -/

/-- The state of a `Request` object relevant to normalization.  In the
Python class, `metrics`, `dimensions` and `name_mapping` are bare
class-level annotations with no default, so each attribute exists only
when `__init__` ran the corresponding `if argument:` branch; `none` models
an unset attribute.  (`filters` and `days` are not consulted by
normalization and are omitted.) -/
structure Request where
  metrics : Option (List String)
  dimensions : Option (List String)
  name_mapping : Option (List (String × String))
deriving DecidableEq, Repr

/-- Model of `Request.__init__`: every attribute is assigned only when the
corresponding argument is truthy (present and a non-empty list or dict),
mirroring the `if metrics:` / `if dimensions:` / `if mappings:` guards. -/
def mkRequest (metrics dimensions : Option (List String))
    (mappings : Option (List (String × String))) : Request :=
  { metrics :=
      match metrics with
      | some l => if l = [] then none else some l
      | none => none
    dimensions :=
      match dimensions with
      | some l => if l = [] then none else some l
      | none => none
    name_mapping :=
      match mappings with
      | some m => if m = [] then none else some m
      | none => none }

/-- A raw API row: a mapping from measure name to loosely-typed value. -/
abbrev Row := List (String × PyVal)

/-- A columnar report: a mapping from column name to the list of its
values, in insertion order. -/
abbrev Columns := List (String × List PyVal)

/-- The two initialization loops of `_request_result_to_dict`: for each
requested name, set `ret[name] = []` and `types[name] =
measures.type_from_name(name)` (metrics first, then dimensions). -/
def initColumns (ms : List Measure) :
    List String → Columns × List (String × String) →
    Except PyErr (Columns × List (String × String))
  | [], acc => .ok acc
  | n :: rest, (cols, types) =>
    match typeFromName ms n with
    | .error e => .error e
    | .ok tp => initColumns ms rest (dictSet cols n [], dictSet types n tp)

/-- One iteration of the inner loop: `ret[name].append(convert(types[name],
line[name]))`.  A missing dict key raises `KeyError`. -/
def appendCell (types : List (String × String)) (line : Row) (cols : Columns)
    (n : String) : Except PyErr Columns :=
  match dictGet types n with
  | none => .error .keyError
  | some tp =>
    match dictGet line n with
    | none => .error .keyError
    | some raw =>
      match convert tp raw with
      | .error e => .error e
      | .ok cv =>
        match dictGet cols n with
        | none => .error .keyError
        | some col => .ok (dictSet cols n (col ++ [cv]))

/-- Process one raw row: append one converted cell per requested name. -/
def processRow (types : List (String × String)) (line : Row) :
    List String → Columns → Except PyErr Columns
  | [], cols => .ok cols
  | n :: rest, cols =>
    match appendCell types line cols n with
    | .error e => .error e
    | .ok cols' => processRow types line rest cols'

/-- Process all raw rows in order. -/
def processRows (names : List String) (types : List (String × String)) :
    List Row → Columns → Except PyErr Columns
  | [], cols => .ok cols
  | line :: rest, cols =>
    match processRow types line names cols with
    | .error e => .error e
    | .ok cols' => processRows names types rest cols'

/-- The typing phase of `_request_result_to_dict`, before the optional
renaming: run the metrics initialization loop, then the dimensions one,
then fold over the rows.  Reading `self.metrics` (line 81) or
`self.dimensions` (line 84) when the attribute was never assigned raises
`AttributeError`, in that order. -/
def buildColumns (req : Request) (ms : List Measure) (rows : List Row) :
    Except PyErr Columns :=
  match req.metrics with
  | none => .error .attributeError
  | some mets =>
    match initColumns ms mets ([], []) with
    | .error e => .error e
    | .ok acc₁ =>
      match req.dimensions with
      | none => .error .attributeError
      | some dims =>
        match initColumns ms dims acc₁ with
        | .error e => .error e
        | .ok (cols, types) => processRows (mets ++ dims) types rows cols

/-- The renaming loop: `mapped_ret[self.name_mapping[k]] = v` for each
column in insertion order; a key absent from the mapping raises `KeyError`. -/
def applyMapping (nm : List (String × String)) :
    Columns → Columns → Except PyErr Columns
  | acc, [] => .ok acc
  | acc, (k, v) :: rest =>
    match dictGet nm k with
    | none => .error .keyError
    | some a => applyMapping nm (dictSet acc a v) rest

/-- Model of `Request._request_result_to_dict(request_result, measures)`: type all
rows, then consult `self.name_mapping`.  Reading the attribute when it was
never assigned raises `AttributeError`; a falsy (empty) mapping skips the
renaming; otherwise every column is renamed through the mapping. -/
def requestResultToDict (req : Request) (ms : List Measure) (rows : List Row) :
    Except PyErr Columns :=
  match buildColumns req ms rows with
  | .error e => .error e
  | .ok cols =>
    match req.name_mapping with
    | none => .error .attributeError
    | some nm => if nm = [] then .ok cols else applyMapping nm [] cols

/-! ## Cost attribution engine (`pr_costs` in `main.py`)

The two normalized reports are modelled as lists of typed rows.  The total
report has one row per (Project, Branch) pair returned by the API, the
rogue report one per (Project, Branch, Resource).  All numeric columns are
rationals; `NaN` cells created by the outer join are modelled as `none`. -/

/-- A row of the total-cost report after renaming:
`{Project, Branch, Cost, Usage_Hours}`. -/
structure TotalRow where
  project : String
  branch : String
  cost : ℚ
  usageHours : ℚ
deriving DecidableEq, Repr

/-- A row of the rogue-cost report after renaming:
`{Project, Branch, Resource_ID, Rogue_Cost, Rogue_Usage_Hours}`. -/
structure RogueRow where
  project : String
  branch : String
  resourceId : String
  rogueCost : ℚ
  rogueUsageHours : ℚ
deriving DecidableEq, Repr

/-- The composite grouping key (Project, Branch). -/
abbrev GroupKey := String × String

/-- Key of a total-report row. -/
def TotalRow.key (t : TotalRow) : GroupKey := (t.project, t.branch)

/-- Key of a rogue-report row. -/
def RogueRow.key (r : RogueRow) : GroupKey := (r.project, r.branch)

/-- The per-resource rogue adjustment applied to every row of the rogue
report before any grouping:
`Rogue_Cost -= (Rogue_Cost / Rogue_Usage_Hours) * 4` and
`Rogue_Usage_Hours -= 4`. -/
def adjustRogueRow (r : RogueRow) : RogueRow :=
  { r with
    rogueCost := r.rogueCost - r.rogueCost / r.rogueUsageHours * 4
    rogueUsageHours := r.rogueUsageHours - 4 }

/-- The distinct (Project, Branch) keys of the total report (the index of
`group_by_and_sum(total_cost, ["Project", "Branch"])`). -/
def totalKeys (ts : List TotalRow) : List GroupKey := (ts.map TotalRow.key).dedup

/-- The distinct (Project, Branch) keys of a rogue report. -/
def rogueKeys (rs : List RogueRow) : List GroupKey := (rs.map RogueRow.key).dedup

/-- Grouped sum of `Cost` over the total report at one key. -/
def sumTotalCost (ts : List TotalRow) (k : GroupKey) : ℚ :=
  ((ts.filter (fun t => t.key = k)).map TotalRow.cost).sum

/-- Grouped sum of `Usage_Hours` over the total report at one key. -/
def sumTotalHours (ts : List TotalRow) (k : GroupKey) : ℚ :=
  ((ts.filter (fun t => t.key = k)).map TotalRow.usageHours).sum

/-- Grouped sum of `Rogue_Cost` over a rogue report at one key. -/
def sumRogueCost (rs : List RogueRow) (k : GroupKey) : ℚ :=
  ((rs.filter (fun r => r.key = k)).map RogueRow.rogueCost).sum

/-- Grouped sum of `Rogue_Usage_Hours` over a rogue report at one key. -/
def sumRogueHours (rs : List RogueRow) (k : GroupKey) : ℚ :=
  ((rs.filter (fun r => r.key = k)).map RogueRow.rogueUsageHours).sum

/-- A row of `pd.concat([...], axis=1)` after the `fillna(0)` and net
adjustment: the total-side columns may be `NaN` (`none`) when the key came
only from the rogue table; the rogue columns are always materialized. -/
structure FinalRow where
  project : String
  branch : String
  cost : Option ℚ
  usageHours : Option ℚ
  rogueCost : ℚ
  rogueUsageHours : ℚ
deriving DecidableEq, Repr

/-- Key of a final-report row. -/
def FinalRow.key (f : FinalRow) : GroupKey := (f.project, f.branch)

/-- The index of the outer join: the union of the two grouped indexes. -/
def joinKeys (ts : List TotalRow) (adj : List RogueRow) : List GroupKey :=
  (totalKeys ts ++ rogueKeys adj).dedup

/-- One row of the joined table at key `k`: grouped sums where the key is
present on that side, `NaN` (pre-fill) otherwise; rogue `NaN`s are then
filled with 0 (`fillna`), and the net adjustment
`Cost -= Rogue_Cost` / `Usage_Hours -= Rogue_Usage_Hours` is applied
(`NaN` propagates through the subtraction on the total side). -/
def joinedRow (ts : List TotalRow) (adj : List RogueRow) (k : GroupKey) : FinalRow :=
  let rc : ℚ := if k ∈ rogueKeys adj then sumRogueCost adj k else 0
  let rh : ℚ := if k ∈ rogueKeys adj then sumRogueHours adj k else 0
  { project := k.1
    branch := k.2
    cost := if k ∈ totalKeys ts then some (sumTotalCost ts k - rc) else none
    usageHours := if k ∈ totalKeys ts then some (sumTotalHours ts k - rh) else none
    rogueCost := rc
    rogueUsageHours := rh }

/-- Ascending order on a possibly-`NaN` cost cell, with `NaN` placed last
(pandas `na_position='last'`). -/
def optLe : Option ℚ → Option ℚ → Prop
  | none, none => True
  | some _, none => True
  | none, some _ => False
  | some x, some y => x ≤ y

instance : DecidableRel optLe := fun a b =>
  match a, b with
  | none, none => isTrue trivial
  | some _, none => isTrue trivial
  | none, some _ => isFalse id
  | some x, some y => inferInstanceAs (Decidable (x ≤ y))

/-- The comparison used by the final `sort_values(by=['Cost'])`. -/
def costLe (a b : FinalRow) : Prop := optLe a.cost b.cost

instance : DecidableRel costLe := fun a b =>
  inferInstanceAs (Decidable (optLe a.cost b.cost))

instance : IsTotal FinalRow costLe :=
  ⟨fun a b => by
    unfold costLe
    match a.cost, b.cost with
    | none, none => exact Or.inl trivial
    | some _, none => exact Or.inl trivial
    | none, some _ => exact Or.inr trivial
    | some x, some y => exact le_total x y⟩

instance : IsTrans FinalRow costLe :=
  ⟨fun a b c hab hbc => by
    unfold costLe at *
    revert hab hbc
    match a.cost, b.cost, c.cost with
    | none, _, none => intro hab hbc; exact trivial
    | some _, _, none => intro hab hbc; exact trivial
    | none, none, some _ => intro hab hbc; exact hbc.elim
    | none, some _, some _ => intro hab hbc; exact hab.elim
    | some _, none, some _ => intro hab hbc; exact hbc.elim
    | some x, some y, some z => intro hab hbc; exact le_trans (α := ℚ) hab hbc⟩

/-- Model of `pr_costs(cloudability, days)` restricted to its pure core: the data
transformation applied to the two already-normalized reports.  Steps, in
the order of the source: per-resource rogue adjustment, grouping with sums,
outer join on (Project, Branch), zero-fill of missing rogue figures, net
adjustment of the total columns, sort ascending by `Cost`. -/
def prCosts (ts : List TotalRow) (rs : List RogueRow) : List FinalRow :=
  let adj := rs.map adjustRogueRow
  List.insertionSort costLe ((joinKeys ts adj).map (joinedRow ts adj))

/-- The sum, over the rogue rows of one (Project, Branch) group, of the
per-row adjusted `Rogue_Cost` values — the quantity the spec says each
group's final rogue cost must equal. -/
def perRowAdjCostSum (rs : List RogueRow) (k : GroupKey) : ℚ :=
  ((rs.filter (fun r => r.key = k)).map (fun r => (adjustRogueRow r).rogueCost)).sum

/-- The sum, over the rogue rows of one (Project, Branch) group, of the
per-row adjusted `Rogue_Usage_Hours` values. -/
def perRowAdjHoursSum (rs : List RogueRow) (k : GroupKey) : ℚ :=
  ((rs.filter (fun r => r.key = k)).map (fun r => (adjustRogueRow r).rogueUsageHours)).sum

/-! # Lemmas about the attribution pipeline -/

/-- The per-resource adjustment does not change a row's grouping key. -/
theorem adjustRogueRow_key (r : RogueRow) : (adjustRogueRow r).key = r.key := rfl

/-- Adjusting every row leaves the grouped index unchanged. -/
theorem rogueKeys_map_adjust (rs : List RogueRow) :
    rogueKeys (rs.map adjustRogueRow) = rogueKeys rs := by
  unfold rogueKeys
  rw [List.map_map]
  rfl

/-- Filtering a group out of the adjusted table is adjusting the filtered
group: the adjustment commutes with grouping. -/
theorem filter_map_adjust (rs : List RogueRow) (k : GroupKey) :
    (rs.map adjustRogueRow).filter (fun r => r.key = k) =
      (rs.filter (fun r => r.key = k)).map adjustRogueRow := by
  induction rs with
  | nil => rfl
  | cons r rs ih =>
    by_cases h : r.key = k
    · simp [List.filter_cons, adjustRogueRow_key, h, ih]
    · simp [List.filter_cons, adjustRogueRow_key, h, ih]

/-- The grouped `Rogue_Cost` sum over the adjusted table is the sum of the
per-row adjusted costs. -/
theorem sumRogueCost_map_adjust (rs : List RogueRow) (k : GroupKey) :
    sumRogueCost (rs.map adjustRogueRow) k = perRowAdjCostSum rs k := by
  unfold sumRogueCost perRowAdjCostSum
  rw [filter_map_adjust, List.map_map]
  rfl

/-- The grouped `Rogue_Usage_Hours` sum over the adjusted table is the sum
of the per-row adjusted hours. -/
theorem sumRogueHours_map_adjust (rs : List RogueRow) (k : GroupKey) :
    sumRogueHours (rs.map adjustRogueRow) k = perRowAdjHoursSum rs k := by
  unfold sumRogueHours perRowAdjHoursSum
  rw [filter_map_adjust, List.map_map]
  rfl

/-- A key matched by no rogue row has an empty adjusted-cost sum. -/
theorem perRowAdjCostSum_eq_zero {rs : List RogueRow} {k : GroupKey}
    (h : ∀ r ∈ rs, r.key ≠ k) : perRowAdjCostSum rs k = 0 := by
  have hnil : rs.filter (fun r => r.key = k) = [] := by
    rw [List.filter_eq_nil_iff]
    intro r hr
    simpa using h r hr
  simp [perRowAdjCostSum, hnil]

/-- A key matched by no rogue row has an empty adjusted-hours sum. -/
theorem perRowAdjHoursSum_eq_zero {rs : List RogueRow} {k : GroupKey}
    (h : ∀ r ∈ rs, r.key ≠ k) : perRowAdjHoursSum rs k = 0 := by
  have hnil : rs.filter (fun r => r.key = k) = [] := by
    rw [List.filter_eq_nil_iff]
    intro r hr
    simpa using h r hr
  simp [perRowAdjHoursSum, hnil]

/-- The final sort is a permutation, so membership in the final report is
membership in the joined table. -/
theorem mem_prCosts (ts : List TotalRow) (rs : List RogueRow) (f : FinalRow) :
    f ∈ prCosts ts rs ↔
      f ∈ (joinKeys ts (rs.map adjustRogueRow)).map
        (joinedRow ts (rs.map adjustRogueRow)) := by
  unfold prCosts
  exact (List.perm_insertionSort costLe _).mem_iff

/-- A key from the total report survives into the join index. -/
theorem totalKey_mem_joinKeys {ts : List TotalRow} (adj : List RogueRow)
    {k : GroupKey} (hk : k ∈ totalKeys ts) : k ∈ joinKeys ts adj := by
  unfold joinKeys
  exact List.mem_dedup.mpr (List.mem_append_left _ hk)

/-- The final report has one row per joined key. -/
theorem length_prCosts (ts : List TotalRow) (rs : List RogueRow) :
    (prCosts ts rs).length = (joinKeys ts (rs.map adjustRogueRow)).length := by
  unfold prCosts
  rw [(List.perm_insertionSort costLe _).length_eq, List.length_map]

/-! # Claim theorems -/

/-- Claim C1 (conservation law): for every pair of input reports and every
(Project, Branch) key present in the total report, the final attributed
report has a row for that key whose `Cost` plus `Rogue_Cost` equals the
grouped total-report cost before any adjustment, and whose `Usage_Hours`
plus `Rogue_Usage_Hours` equals the grouped total-report usage hours: the
split never loses or duplicates cost. -/
theorem pr_costs_conservation (ts : List TotalRow) (rs : List RogueRow)
    (hq : ∀ r ∈ rs, (4 : ℚ) ≤ r.rogueUsageHours) :
    ∀ k ∈ totalKeys ts, ∃ f ∈ prCosts ts rs,
      f.project = k.1 ∧ f.branch = k.2 ∧
      ∃ c u, f.cost = some c ∧ f.usageHours = some u ∧
        c + f.rogueCost = sumTotalCost ts k ∧
        u + f.rogueUsageHours = sumTotalHours ts k := by
  intro k hk
  refine ⟨joinedRow ts (rs.map adjustRogueRow) k, ?_, rfl, rfl, ?_⟩
  · rw [mem_prCosts]
    exact List.mem_map_of_mem _ (totalKey_mem_joinKeys _ hk)
  · have hcost : (joinedRow ts (rs.map adjustRogueRow) k).cost =
        some (sumTotalCost ts k - (joinedRow ts (rs.map adjustRogueRow) k).rogueCost) := by
      simp [joinedRow, hk]
    have huse : (joinedRow ts (rs.map adjustRogueRow) k).usageHours =
        some (sumTotalHours ts k - (joinedRow ts (rs.map adjustRogueRow) k).rogueUsageHours) := by
      simp [joinedRow, hk]
    exact ⟨_, _, hcost, huse, by ring, by ring⟩

/-- Witness for C1 at the spec's end-to-end scenario (one total row with
cost 100 over 50 hours, one rogue resource with cost 20 over 10 hours). -/
theorem pr_costs_conservation_witness :
    ∃ f ∈ prCosts [⟨"A", "X", 100, 50⟩] [⟨"A", "X", "r1", 20, 10⟩],
      f.project = "A" ∧ f.branch = "X" ∧
      ∃ c u, f.cost = some c ∧ f.usageHours = some u ∧
        c + f.rogueCost = sumTotalCost [⟨"A", "X", 100, 50⟩] ("A", "X") ∧
        u + f.rogueUsageHours = sumTotalHours [⟨"A", "X", 100, 50⟩] ("A", "X") :=
  pr_costs_conservation [⟨"A", "X", 100, 50⟩] [⟨"A", "X", "r1", 20, 10⟩]
    (by decide) ("A", "X") (by decide)

/-- Claim C2 (adjustment precedes grouping): every row of the final report
carries, as its rogue figures, the sum over the matching rogue rows of the
per-row adjusted values — the 4-hour credit is applied once per resource
row, not once per (Project, Branch) group. -/
theorem pr_costs_adjust_before_group (ts : List TotalRow) (rs : List RogueRow)
    (hq : ∀ r ∈ rs, (4 : ℚ) ≤ r.rogueUsageHours) :
    ∀ f ∈ prCosts ts rs,
      f.rogueCost = perRowAdjCostSum rs (f.project, f.branch) ∧
      f.rogueUsageHours = perRowAdjHoursSum rs (f.project, f.branch) := by
  intro f hf
  rw [mem_prCosts] at hf
  obtain ⟨k, hk, rfl⟩ := List.mem_map.mp hf
  have hproj : ((joinedRow ts (rs.map adjustRogueRow) k).project,
      (joinedRow ts (rs.map adjustRogueRow) k).branch) = k := rfl
  rw [hproj]
  by_cases hr : k ∈ rogueKeys (rs.map adjustRogueRow)
  · constructor
    · have h1 : (joinedRow ts (rs.map adjustRogueRow) k).rogueCost =
          sumRogueCost (rs.map adjustRogueRow) k := by simp [joinedRow, hr]
      rw [h1, sumRogueCost_map_adjust]
    · have h1 : (joinedRow ts (rs.map adjustRogueRow) k).rogueUsageHours =
          sumRogueHours (rs.map adjustRogueRow) k := by simp [joinedRow, hr]
      rw [h1, sumRogueHours_map_adjust]
  · have hno : ∀ r ∈ rs, r.key ≠ k := by
      intro r hrr hkey
      apply hr
      rw [rogueKeys_map_adjust]
      unfold rogueKeys
      exact List.mem_dedup.mpr (List.mem_map.mpr ⟨r, hrr, hkey⟩)
    constructor
    · have h1 : (joinedRow ts (rs.map adjustRogueRow) k).rogueCost = 0 := by
        simp [joinedRow, hr]
      rw [h1, perRowAdjCostSum_eq_zero hno]
    · have h1 : (joinedRow ts (rs.map adjustRogueRow) k).rogueUsageHours = 0 := by
        simp [joinedRow, hr]
      rw [h1, perRowAdjHoursSum_eq_zero hno]

/-- Witness for C2: in the spec's end-to-end scenario the single output row
carries rogue figures 12 and 6, the per-row adjusted values of the single
rogue resource. -/
theorem pr_costs_adjust_before_group_witness :
    (FinalRow.mk "A" "X" (some 88) (some 44) 12 6).rogueCost =
      perRowAdjCostSum [⟨"A", "X", "r1", 20, 10⟩] ("A", "X") ∧
    (FinalRow.mk "A" "X" (some 88) (some 44) 12 6).rogueUsageHours =
      perRowAdjHoursSum [⟨"A", "X", "r1", 20, 10⟩] ("A", "X") :=
  pr_costs_adjust_before_group [⟨"A", "X", 100, 50⟩] [⟨"A", "X", "r1", 20, 10⟩]
    (by decide) (FinalRow.mk "A" "X" (some 88) (some 44) 12 6)
    (by
      rw [mem_prCosts]
      simp [joinKeys, totalKeys, rogueKeys, joinedRow, sumTotalCost, sumTotalHours,
        sumRogueCost, sumRogueHours, adjustRogueRow, TotalRow.key, RogueRow.key]
      norm_num)

/-- Claim C3 (4-hour boundary neutrality): a rogue row with exactly 4 usage
hours is adjusted to `Rogue_Cost = 0` and `Rogue_Usage_Hours = 0` whatever
its original cost, and keeping or dropping it leaves every group's
adjusted rogue sums unchanged: the row is numerically neutral, not
filtered out. -/
theorem adjust_four_hour_boundary (r : RogueRow) (rs : List RogueRow)
    (k : GroupKey) (h : r.rogueUsageHours = 4) :
    (adjustRogueRow r).rogueCost = 0 ∧ (adjustRogueRow r).rogueUsageHours = 0 ∧
    perRowAdjCostSum (r :: rs) k = perRowAdjCostSum rs k ∧
    perRowAdjHoursSum (r :: rs) k = perRowAdjHoursSum rs k := by
  have hcost : (adjustRogueRow r).rogueCost = 0 := by
    simp only [adjustRogueRow, h]
    ring
  have hhrs : (adjustRogueRow r).rogueUsageHours = 0 := by
    simp only [adjustRogueRow, h]
    ring
  refine ⟨hcost, hhrs, ?_, ?_⟩
  · by_cases hk : r.key = k <;>
      simp [perRowAdjCostSum, List.filter_cons, hk, hcost]
  · by_cases hk : r.key = k <;>
      simp [perRowAdjHoursSum, List.filter_cons, hk, hhrs]

/-- Witness for C3: a rogue row costing 7 over exactly 4 hours adjusts to
zero cost and zero hours and adds nothing to its group's sums. -/
theorem adjust_four_hour_boundary_witness :
    (adjustRogueRow ⟨"A", "X", "r1", 7, 4⟩).rogueCost = 0 ∧
    (adjustRogueRow ⟨"A", "X", "r1", 7, 4⟩).rogueUsageHours = 0 ∧
    perRowAdjCostSum [⟨"A", "X", "r1", 7, 4⟩, ⟨"A", "X", "r2", 20, 10⟩] ("A", "X") =
      perRowAdjCostSum [⟨"A", "X", "r2", 20, 10⟩] ("A", "X") ∧
    perRowAdjHoursSum [⟨"A", "X", "r1", 7, 4⟩, ⟨"A", "X", "r2", 20, 10⟩] ("A", "X") =
      perRowAdjHoursSum [⟨"A", "X", "r2", 20, 10⟩] ("A", "X") :=
  adjust_four_hour_boundary ⟨"A", "X", "r1", 7, 4⟩ [⟨"A", "X", "r2", 20, 10⟩]
    ("A", "X") (by decide)

/-- Claim C4 (no-rogue fill): a (Project, Branch) key present in the total
report but matched by no rogue row is retained by the outer join, its rogue
figures are materialized as 0 (never missing), and its `Cost` and
`Usage_Hours` are the grouped total-report sums, unchanged by the net
adjustment. -/
theorem pr_costs_no_rogue_fill (ts : List TotalRow) (rs : List RogueRow)
    (k : GroupKey) (hk : k ∈ totalKeys ts) (hno : ∀ r ∈ rs, r.key ≠ k) :
    ∃ f ∈ prCosts ts rs, f.project = k.1 ∧ f.branch = k.2 ∧
      f.rogueCost = 0 ∧ f.rogueUsageHours = 0 ∧
      f.cost = some (sumTotalCost ts k) ∧
      f.usageHours = some (sumTotalHours ts k) := by
  have hradj : k ∉ rogueKeys (rs.map adjustRogueRow) := by
    rw [rogueKeys_map_adjust]
    intro hmem
    unfold rogueKeys at hmem
    obtain ⟨r, hr, hkey⟩ := List.mem_map.mp (List.mem_dedup.mp hmem)
    exact hno r hr hkey
  refine ⟨joinedRow ts (rs.map adjustRogueRow) k, ?_, rfl, rfl, ?_, ?_, ?_, ?_⟩
  · rw [mem_prCosts]
    exact List.mem_map_of_mem _ (totalKey_mem_joinKeys _ hk)
  · simp [joinedRow, hradj]
  · simp [joinedRow, hradj]
  · simp [joinedRow, hk, hradj]
  · simp [joinedRow, hk, hradj]

/-- Witness for C4: the key ("A", "X") appears only in the total report;
its final row keeps cost 100 and 50 hours with zero rogue figures. -/
theorem pr_costs_no_rogue_fill_witness :
    ∃ f ∈ prCosts [⟨"A", "X", 100, 50⟩] [⟨"B", "Y", "r1", 20, 10⟩],
      f.project = "A" ∧ f.branch = "X" ∧
      f.rogueCost = 0 ∧ f.rogueUsageHours = 0 ∧
      f.cost = some (sumTotalCost [⟨"A", "X", 100, 50⟩] ("A", "X")) ∧
      f.usageHours = some (sumTotalHours [⟨"A", "X", 100, 50⟩] ("A", "X")) :=
  pr_costs_no_rogue_fill [⟨"A", "X", 100, 50⟩] [⟨"B", "Y", "r1", 20, 10⟩]
    ("A", "X") (by decide) (by decide)

/-- Claim C10 (sort order): the final report is sorted ascending by `Cost`
(`NaN` cells, possible only for rogue-only keys, come last): for every pair
of adjacent output rows the earlier cost is less than or equal to the later
one. -/
theorem pr_costs_sorted (ts : List TotalRow) (rs : List RogueRow)
    (hq : ∀ r ∈ rs, (4 : ℚ) ≤ r.rogueUsageHours)
    (i : ℕ) (h : i + 1 < (prCosts ts rs).length) :
    optLe ((prCosts ts rs).get ⟨i, Nat.lt_of_succ_lt h⟩).cost
      ((prCosts ts rs).get ⟨i + 1, h⟩).cost := by
  have hs : List.Sorted costLe (prCosts ts rs) :=
    List.sorted_insertionSort costLe _
  exact hs.rel_get_of_lt (Nat.lt_succ_self i)

/-- Witness for C10 on a two-key report: the cheaper group sorts first. -/
theorem pr_costs_sorted_witness :
    optLe ((prCosts [⟨"A", "X", 100, 50⟩, ⟨"B", "Y", 5, 2⟩] []).get
        ⟨0, by rw [length_prCosts]; decide⟩).cost
      ((prCosts [⟨"A", "X", 100, 50⟩, ⟨"B", "Y", 5, 2⟩] []).get
        ⟨1, by rw [length_prCosts]; decide⟩).cost :=
  pr_costs_sorted [⟨"A", "X", 100, 50⟩, ⟨"B", "Y", 5, 2⟩] [] (by decide) 0
    (by rw [length_prCosts]; decide)

/-! # Lemmas about the dict model -/

/-- Assignment binds the assigned key. -/
theorem dictGet_dictSet_self {α : Type} (d : List (String × α)) (k : String)
    (v : α) : dictGet (dictSet d k v) k = some v := by
  induction d with
  | nil => simp [dictSet, dictGet]
  | cons kv rest ih =>
    obtain ⟨k', v'⟩ := kv
    by_cases h : k' = k
    · simp [dictSet, dictGet, h]
    · simp [dictSet, dictGet, h, ih]

/-- Assignment leaves other keys untouched. -/
theorem dictGet_dictSet_ne {α : Type} (d : List (String × α)) {k k' : String}
    (v : α) (h : k' ≠ k) : dictGet (dictSet d k v) k' = dictGet d k' := by
  induction d with
  | nil =>
    have hne : k ≠ k' := fun hkk => h hkk.symm
    simp [dictSet, dictGet, hne]
  | cons kv rest ih =>
    obtain ⟨k'', v''⟩ := kv
    by_cases hk : k'' = k
    · subst hk
      have hne : k'' ≠ k' := fun hkk => h hkk.symm
      simp [dictSet, dictGet, hne]
    · by_cases hk' : k'' = k'
      · simp [dictSet, dictGet, hk, hk', h]
      · simp [dictSet, dictGet, hk, hk', ih]

/-- Looking up a key succeeds exactly when the key is bound. -/
theorem dictGet_isSome_iff_mem_keys {α : Type} (d : List (String × α))
    (k : String) : (dictGet d k).isSome ↔ k ∈ keysOf d := by
  induction d with
  | nil => simp [dictGet, keysOf]
  | cons kv rest ih =>
    obtain ⟨k', v'⟩ := kv
    by_cases h : k' = k
    · simp [dictGet, keysOf, h]
    · have : k ≠ k' := fun hk => h hk.symm
      simp [dictGet, keysOf, h, this, ih]

/-- Assigning an already-bound key leaves the key list unchanged. -/
theorem keysOf_dictSet_of_mem {α : Type} (d : List (String × α))
    (k : String) (v : α) (h : (dictGet d k).isSome) :
    keysOf (dictSet d k v) = keysOf d := by
  induction d with
  | nil => simp [dictGet] at h
  | cons kv rest ih =>
    obtain ⟨k', v'⟩ := kv
    by_cases hk : k' = k
    · simp [dictSet, keysOf, hk]
    · have h' : (dictGet rest k).isSome := by simpa [dictGet, hk] using h
      have ih' := ih h'
      simp only [keysOf] at ih'
      simp [dictSet, keysOf, hk, ih']

/-- In a dict whose keys are distinct, every binding is what lookup finds. -/
theorem dictGet_of_mem_of_nodup {α : Type} (d : List (String × α))
    (hnd : (keysOf d).Nodup) {kv : String × α} (hkv : kv ∈ d) :
    dictGet d kv.1 = some kv.2 := by
  induction d with
  | nil => simp at hkv
  | cons hd rest ih =>
    obtain ⟨k', v'⟩ := hd
    simp only [keysOf, List.map_cons, List.nodup_cons] at hnd
    rcases List.mem_cons.mp hkv with heq | hmem
    · subst heq
      simp [dictGet]
    · have hne : k' ≠ kv.1 := by
        intro hk
        exact hnd.1 (hk ▸ (List.mem_map.mpr ⟨kv, hmem, rfl⟩))
      simpa [dictGet, hne] using ih hnd.2 hmem

/-- A member of a dict after assignment is the new binding or an old one. -/
theorem mem_dictSet {α : Type} (d : List (String × α)) (k : String) (v : α)
    {kv : String × α} (h : kv ∈ dictSet d k v) : kv = (k, v) ∨ kv ∈ d := by
  induction d with
  | nil => simpa [dictSet] using h
  | cons hd rest ih =>
    obtain ⟨k', v'⟩ := hd
    by_cases hk : k' = k
    · rcases List.mem_cons.mp (by simpa [dictSet, hk] using h) with heq | hmem
      · exact Or.inl heq
      · exact Or.inr (List.mem_cons_of_mem _ hmem)
    · rcases List.mem_cons.mp (by simpa [dictSet, hk] using h) with heq | hmem
      · exact Or.inr (heq ▸ List.mem_cons_self _ _)
      · rcases ih hmem with h' | h'
        · exact Or.inl h'
        · exact Or.inr (List.mem_cons_of_mem _ h')

/-- Assigning a fresh key appends it to the key list. -/
theorem keysOf_dictSet_of_none {α : Type} (d : List (String × α))
    (k : String) (v : α) (h : dictGet d k = none) :
    keysOf (dictSet d k v) = keysOf d ++ [k] := by
  induction d with
  | nil => simp [dictSet, keysOf]
  | cons kv rest ih =>
    obtain ⟨k', v'⟩ := kv
    by_cases hk : k' = k
    · simp [dictGet, hk] at h
    · have h' : dictGet rest k = none := by simpa [dictGet, hk] using h
      have ih' := ih h'
      simp only [keysOf] at ih'
      simp [dictSet, keysOf, hk, ih']

/-- Assignment never unbinds a key. -/
theorem dictGet_isSome_dictSet {α : Type} (d : List (String × α))
    {k : String} (k' : String) (v : α) (h : (dictGet d k).isSome) :
    (dictGet (dictSet d k' v) k).isSome := by
  by_cases hk : k = k'
  · subst hk
    simp [dictGet_dictSet_self]
  · rwa [dictGet_dictSet_ne _ _ hk]

/-! # Lemmas about the result normalizer -/

/-- Running the initialization loop on a concatenation is running it on
the two halves in sequence (the metrics loop, then the dimensions loop). -/
theorem initColumns_append {ms : List Measure} :
    ∀ (a b : List String) (acc : Columns × List (String × String)),
    initColumns ms (a ++ b) acc =
      match initColumns ms a acc with
      | .error e => .error e
      | .ok acc' => initColumns ms b acc'
  | [], b, acc => rfl
  | n :: rest, b, (cols, types) => by
    rw [List.cons_append]
    simp only [initColumns]
    cases htp : typeFromName ms n with
    | error e => rfl
    | ok tp => exact initColumns_append rest b (dictSet cols n [], dictSet types n tp)

/-- After the initialization loops, every requested name is bound to an
empty column, other keys are untouched, and key distinctness is preserved. -/
theorem initColumns_ok {ms : List Measure} :
    ∀ (names : List String) (acc out : Columns × List (String × String)),
    initColumns ms names acc = .ok out →
    (∀ n, dictGet out.1 n = if n ∈ names then some [] else dictGet acc.1 n) ∧
    ((keysOf acc.1).Nodup → (keysOf out.1).Nodup)
  | [], acc, out, h => by
    cases h
    exact ⟨fun n => by simp, fun h => h⟩
  | n :: rest, (cols, types), out, h => by
    unfold initColumns at h
    revert h
    cases htp : typeFromName ms n with
    | error e => intro h; cases h
    | ok tp =>
      intro h
      obtain ⟨h1, h2⟩ := initColumns_ok rest (dictSet cols n [], dictSet types n tp) out h
      constructor
      · intro m
        rw [h1 m]
        by_cases hm : m ∈ rest
        · simp [hm]
        · by_cases hmn : m = n
          · subst hmn
            simp [hm, dictGet_dictSet_self]
          · simp only [hm, if_false]
            rw [dictGet_dictSet_ne _ _ hmn]
            simp [List.mem_cons, hmn, hm]
      · intro hnd
        apply h2
        by_cases hb : (dictGet cols n).isSome
        · rwa [keysOf_dictSet_of_mem _ _ _ hb]
        · have hnone : dictGet cols n = none := by
            cases hcase : dictGet cols n
            · rfl
            · rw [hcase] at hb
              simp at hb
          have hnotmem : n ∉ keysOf cols := by
            rw [← dictGet_isSome_iff_mem_keys, hnone]
            simp
          rw [keysOf_dictSet_of_none _ _ _ hnone]
          exact List.Nodup.append hnd (List.nodup_singleton n)
            (fun a ha hb2 => hnotmem ((List.mem_singleton.mp hb2) ▸ ha))

/-- Processing one row appends exactly one converted cell to each distinct
requested column, leaves other keys untouched, and preserves the key list. -/
theorem processRow_ok {types : List (String × String)} {line : Row} :
    ∀ (names : List String) (cols cols' : Columns),
    processRow types line names cols = .ok cols' → names.Nodup →
    (∀ n ∈ names, ∀ col, dictGet cols n = some col →
      ∃ cv, dictGet cols' n = some (col ++ [cv])) ∧
    (∀ n, n ∉ names → dictGet cols' n = dictGet cols n) ∧
    keysOf cols' = keysOf cols
  | [], cols, cols', h, _ => by
    cases h
    exact ⟨fun n hn => absurd hn (List.not_mem_nil n), fun n _ => rfl, rfl⟩
  | n :: rest, cols, cols', h, hnd => by
    unfold processRow at h
    cases hc : appendCell types line cols n with
    | error e =>
      simp only [hc] at h
      exact Except.noConfusion h
    | ok c₁ =>
      simp only [hc] at h
      unfold appendCell at hc
      split at hc
      · cases hc
      · split at hc
        · cases hc
        · split at hc
          · cases hc
          · rename_i cv hcv
            split at hc
            · cases hc
            · rename_i col₀ hcol₀
              cases hc
              have hnn : n ∉ rest := (List.nodup_cons.mp hnd).1
              have hndr : rest.Nodup := (List.nodup_cons.mp hnd).2
              obtain ⟨g1, g2, g3⟩ :=
                processRow_ok rest (dictSet cols n (col₀ ++ [cv])) cols' h hndr
              refine ⟨?_, ?_, ?_⟩
              · intro m hm col hcol
                rcases List.mem_cons.mp hm with rfl | hmr
                · rw [hcol₀] at hcol
                  injection hcol with hcol
                  subst hcol
                  refine ⟨cv, ?_⟩
                  rw [g2 m hnn, dictGet_dictSet_self]
                · have hmn : m ≠ n := fun hmn => hnn (hmn ▸ hmr)
                  have hstep : dictGet (dictSet cols n (col₀ ++ [cv])) m = some col := by
                    rw [dictGet_dictSet_ne _ _ hmn, hcol]
                  exact g1 m hmr col hstep
              · intro m hm
                have hmn : m ≠ n := fun hmn => hm (hmn ▸ List.mem_cons_self n rest)
                have hmr : m ∉ rest := fun hmr => hm (List.mem_cons_of_mem _ hmr)
                rw [g2 m hmr, dictGet_dictSet_ne _ _ hmn]
              · rw [g3]
                exact keysOf_dictSet_of_mem cols n _ (by rw [hcol₀]; rfl)

/-- Processing all rows grows every bound column by one cell per row and
preserves the key list. -/
theorem processRows_ok {names : List String} {types : List (String × String)}
    (hnd : names.Nodup) :
    ∀ (rows : List Row) (cols cols' : Columns),
    processRows names types rows cols = .ok cols' →
    (∀ n ∈ names, ∀ col, dictGet cols n = some col →
      ∃ col', dictGet cols' n = some col' ∧ col'.length = col.length + rows.length) ∧
    keysOf cols' = keysOf cols
  | [], cols, cols', h => by
    cases h
    exact ⟨fun n _ col hcol => ⟨col, hcol, rfl⟩, rfl⟩
  | line :: rest, cols, cols', h => by
    unfold processRows at h
    revert h
    cases h1 : processRow types line names cols with
    | error e => intro h; cases h
    | ok c₁ =>
      intro h
      obtain ⟨p1, _, p3⟩ := processRow_ok names cols c₁ h1 hnd
      obtain ⟨q1, q3⟩ := processRows_ok hnd rest c₁ cols' h
      refine ⟨?_, q3.trans p3⟩
      intro n hn col hcol
      obtain ⟨cv, hcv⟩ := p1 n hn col hcol
      obtain ⟨col', hcol', hlen⟩ := q1 n hn (col ++ [cv]) hcv
      refine ⟨col', hcol', ?_⟩
      rw [hlen, List.length_append, List.length_singleton, List.length_cons]
      omega

/-- The renaming loop fails with a `KeyError` when some column key is
absent from the mapping. -/
theorem applyMapping_error_of_missing {nm : List (String × String)} :
    ∀ (cs acc : Columns), (∃ kv ∈ cs, dictGet nm kv.1 = none) →
    applyMapping nm acc cs = .error .keyError
  | [], acc, h => by
    obtain ⟨kv, hkv, _⟩ := h
    exact absurd hkv (List.not_mem_nil kv)
  | (k, v) :: rest, acc, h => by
    unfold applyMapping
    cases hm : dictGet nm k with
    | none => rfl
    | some a =>
      obtain ⟨kv, hkv, hnone⟩ := h
      rcases List.mem_cons.mp hkv with rfl | hmem
      · rw [hm] at hnone
        cases hnone
      · exact applyMapping_error_of_missing rest _ ⟨kv, hmem, hnone⟩

/-- The renaming loop succeeds when the mapping covers every column key. -/
theorem applyMapping_ok_of_covered {nm : List (String × String)} :
    ∀ (cs acc : Columns), (∀ kv ∈ cs, (dictGet nm kv.1).isSome) →
    ∃ out, applyMapping nm acc cs = .ok out
  | [], acc, _ => ⟨acc, rfl⟩
  | (k, v) :: rest, acc, h => by
    have hk := h (k, v) (List.mem_cons_self _ _)
    unfold applyMapping
    cases hm : dictGet nm k with
    | none => rw [hm] at hk; cases hk
    | some a =>
      exact applyMapping_ok_of_covered rest (dictSet acc a v)
        (fun kv hkv => h kv (List.mem_cons_of_mem _ hkv))

/-- Keys bound before the renaming loop stay bound after it. -/
theorem applyMapping_preserves {nm : List (String × String)} :
    ∀ (cs acc out : Columns), applyMapping nm acc cs = .ok out →
    ∀ k, (dictGet acc k).isSome → (dictGet out k).isSome
  | [], acc, out, h => by cases h; exact fun k hk => hk
  | (k, v) :: rest, acc, out, h => by
    revert h
    unfold applyMapping
    cases hm : dictGet nm k with
    | none => intro h; cases h
    | some a =>
      intro h k' hk'
      exact applyMapping_preserves rest (dictSet acc a v) out h k'
        (dictGet_isSome_dictSet _ _ _ hk')

/-- After a successful renaming pass every source column's alias is bound
in the output. -/
theorem applyMapping_alias_bound {nm : List (String × String)} :
    ∀ (cs acc out : Columns), applyMapping nm acc cs = .ok out →
    ∀ kv ∈ cs, ∀ a, dictGet nm kv.1 = some a → (dictGet out a).isSome
  | [], acc, out, h => by
    intro kv hkv
    exact absurd hkv (List.not_mem_nil kv)
  | (k, v) :: rest, acc, out, h => by
    revert h
    unfold applyMapping
    cases hm : dictGet nm k with
    | none => intro h; cases h
    | some a₀ =>
      intro h kv hkv a ha
      rcases List.mem_cons.mp hkv with rfl | hmem
      · have : a₀ = a := by
          rw [hm] at ha
          exact Option.some.inj ha
        subst this
        exact applyMapping_preserves rest _ out h a₀
          (by rw [dictGet_dictSet_self]; rfl)
      · exact applyMapping_alias_bound rest _ out h kv hmem a ha

/-- Every binding of the renamed report is an original column carried over
verbatim under its mapped alias. -/
theorem applyMapping_mem_src {nm : List (String × String)} :
    ∀ (cs acc out : Columns), applyMapping nm acc cs = .ok out →
    ∀ kv ∈ out, kv ∈ acc ∨ ∃ k₀, (k₀, kv.2) ∈ cs ∧ dictGet nm k₀ = some kv.1
  | [], acc, out, h => by
    cases h
    exact fun kv hkv => Or.inl hkv
  | (k, v) :: rest, acc, out, h => by
    revert h
    unfold applyMapping
    cases hm : dictGet nm k with
    | none => intro h; cases h
    | some a =>
      intro h kv hkv
      rcases applyMapping_mem_src rest (dictSet acc a v) out h kv hkv with hacc | ⟨k₀, hk₀, hmk⟩
      · rcases mem_dictSet _ _ _ hacc with rfl | hold
        · exact Or.inr ⟨k, List.mem_cons_self _ _, hm⟩
        · exact Or.inl hold
      · exact Or.inr ⟨k₀, List.mem_cons_of_mem _ hk₀, hmk⟩

/-- Claim C5 (type conversion table): `convert` parses the value as a double
for the tags `float`, `percentage` and `currency` (raising `ValueError` on
non-numeric input), as a signed integer for `integer` (raising on
non-integral input), returns the value as a string, never failing, for
`date` and `string`, and fails with the unsupported-type error for every
other tag. -/
theorem convert_type_table (tp : String) (v : PyVal) :
    ((tp = "float" ∨ tp = "percentage" ∨ tp = "currency") →
      (∀ q, pyFloat v = some q → convert tp v = Except.ok (PyVal.float q)) ∧
      (pyFloat v = none → convert tp v = Except.error PyErr.valueError)) ∧
    (tp = "integer" →
      (∀ n, pyInt v = some n → convert tp v = Except.ok (PyVal.int n)) ∧
      (pyInt v = none → convert tp v = Except.error PyErr.valueError)) ∧
    ((tp = "date" ∨ tp = "string") →
      convert tp v = Except.ok (PyVal.str (pyStr v))) ∧
    (tp ∉ ["float", "percentage", "integer", "currency", "date", "string"] →
      convert tp v = Except.error PyErr.unsupportedType) := by
  refine ⟨?_, ?_, ?_, ?_⟩
  · rintro (rfl | rfl | rfl) <;>
      exact ⟨fun q hq => by simp [convert, floatConv, hq],
        fun hn => by simp [convert, floatConv, hn]⟩
  · rintro rfl
    exact ⟨fun n hn => by simp [convert, intConv, hn],
      fun hn => by simp [convert, intConv, hn]⟩
  · rintro (rfl | rfl) <;> simp [convert]
  · intro hne
    have h1 : tp ≠ "float" := fun h => hne (by simp [h])
    have h2 : tp ≠ "percentage" := fun h => hne (by simp [h])
    have h3 : tp ≠ "integer" := fun h => hne (by simp [h])
    have h4 : tp ≠ "currency" := fun h => hne (by simp [h])
    have h5 : tp ≠ "date" := fun h => hne (by simp [h])
    have h6 : tp ≠ "string" := fun h => hne (by simp [h])
    simp [convert, h1, h2, h3, h4, h5, h6]

/-- Witness for C5: the unknown tag of the spec's test case is rejected
with the unsupported-type error. -/
theorem convert_type_table_witness :
    convert "unknown" (PyVal.str "x") = Except.error PyErr.unsupportedType :=
  (convert_type_table "unknown" (PyVal.str "x")).2.2.2 (by decide)

/-- Claim C6 (code bug): a request constructed with metrics and dimensions
but without a name mapping cannot normalize.  `Request.__init__` assigns
`self.name_mapping` only inside `if mappings:`, and the class body carries
a bare annotation with no default, so after the typing loops complete,
`if self.name_mapping:` (line 97) raises `AttributeError` instead of
skipping the renaming step as the spec, the method's docstring and the
`Optional` annotation intend. -/
theorem name_mapping_unset_attribute_error :
    requestResultToDict (mkRequest (some ["m"]) (some ["d"]) none)
      [⟨"Lm", "m", "float"⟩, ⟨"Ld", "d", "string"⟩]
      [[("m", PyVal.float 1), ("d", PyVal.str "a")]] =
      Except.error PyErr.attributeError := rfl

/-- Claim C7 (mapping completeness): with a (nonempty) name mapping in
effect, normalization fails with a `KeyError` whenever some output column
key is missing from the mapping, and when the mapping covers every key it
succeeds, binds each column's mapped alias in the result, and returns only
original columns carried over verbatim under their aliases (so every
column keeps its row count). -/
theorem mapping_completeness (metrics dims : List String)
    (nm : List (String × String)) (ms : List Measure) (rows : List Row)
    (cols : Columns) (hnm : nm ≠ [])
    (hb : buildColumns (mkRequest (some metrics) (some dims) (some nm)) ms rows =
      .ok cols) :
    ((∃ kv ∈ cols, dictGet nm kv.1 = none) →
      requestResultToDict (mkRequest (some metrics) (some dims) (some nm)) ms rows =
        Except.error PyErr.keyError) ∧
    ((∀ kv ∈ cols, (dictGet nm kv.1).isSome) →
      ∃ out, requestResultToDict (mkRequest (some metrics) (some dims) (some nm))
          ms rows = Except.ok out ∧
        (∀ kv ∈ cols, ∀ a, dictGet nm kv.1 = some a → (dictGet out a).isSome) ∧
        (∀ kv ∈ out, ∃ k₀, (k₀, kv.2) ∈ cols ∧ dictGet nm k₀ = some kv.1)) := by
  have hreq : requestResultToDict (mkRequest (some metrics) (some dims) (some nm))
      ms rows = applyMapping nm [] cols := by
    unfold requestResultToDict
    simp only [hb]
    simp [mkRequest, hnm]
  constructor
  · intro hmiss
    rw [hreq]
    exact applyMapping_error_of_missing cols [] hmiss
  · intro hcov
    obtain ⟨out, hout⟩ := applyMapping_ok_of_covered cols [] hcov
    refine ⟨out, hreq.trans hout, ?_, ?_⟩
    · intro kv hkv a ha
      exact applyMapping_alias_bound cols [] out hout kv hkv a ha
    · intro kv hkv
      rcases applyMapping_mem_src cols [] out hout kv hkv with hacc | hsrc
      · exact absurd hacc (List.not_mem_nil kv)
      · exact hsrc

/-- Witness for C7: a complete two-entry mapping renames both requested
columns and carries their single-row values over. -/
theorem mapping_completeness_witness :
    ∃ out, requestResultToDict
        (mkRequest (some ["m"]) (some ["d"]) (some [("m", "M"), ("d", "D")]))
        [⟨"Lm", "m", "float"⟩, ⟨"Ld", "d", "string"⟩]
        [[("m", PyVal.float 1), ("d", PyVal.str "a")]] = Except.ok out ∧
      (∀ kv ∈ [("m", [PyVal.float 1]), ("d", [PyVal.str "a"])],
        ∀ a, dictGet [("m", "M"), ("d", "D")] kv.1 = some a →
          (dictGet out a).isSome) ∧
      (∀ kv ∈ out, ∃ k₀, (k₀, kv.2) ∈ [("m", [PyVal.float 1]), ("d", [PyVal.str "a"])] ∧
        dictGet [("m", "M"), ("d", "D")] k₀ = some kv.1) :=
  (mapping_completeness ["m"] ["d"] [("m", "M"), ("d", "D")]
    [⟨"Lm", "m", "float"⟩, ⟨"Ld", "d", "string"⟩]
    [[("m", PyVal.float 1), ("d", PyVal.str "a")]]
    [("m", [PyVal.float 1]), ("d", [PyVal.str "a"])]
    (by decide) (by rfl)).2 (by decide)

/-- Claim C8 (filter builder): `make_filter` fails with the unsupported
operator error exactly when the operator is outside the 12-token whitelist,
and for every whitelisted operator returns the percent-encoding of
`field ++ operator ++ value`. -/
theorem make_filter_spec (key operator value : String) :
    (makeFilter key operator value = Except.error PyErr.unsupportedOperator ↔
      operator ∉ filterOperators) ∧
    (operator ∈ filterOperators →
      makeFilter key operator value =
        Except.ok (urlQuote (key ++ operator ++ value))) := by
  unfold makeFilter
  by_cases hmem : operator ∈ filterOperators
  · simp [hmem]
  · simp [hmem]

/-- Witness for C8 at the spec's test case: `>=` is whitelisted and the
filter is the quoted concatenation. -/
theorem make_filter_spec_witness :
    makeFilter "cost" ">=" "10" =
      Except.ok (urlQuote ("cost" ++ ">=" ++ "10")) :=
  (make_filter_spec "cost" ">=" "10").2 (by decide)

/-- Claim C9, amended (columnar shape invariant): when the requested metric
and dimension names are pairwise distinct, every column of a successfully
returned report has exactly one entry per source row. -/
theorem columnar_shape_invariant (metrics dims : List String)
    (mappings : Option (List (String × String))) (ms : List Measure)
    (rows : List Row) (out : Columns) (kv : String × List PyVal)
    (hnd : (metrics ++ dims).Nodup)
    (hok : requestResultToDict (mkRequest (some metrics) (some dims) mappings)
      ms rows = Except.ok out)
    (hkv : kv ∈ out) : kv.2.length = rows.length := by
  unfold requestResultToDict at hok
  split at hok
  · exact Except.noConfusion hok
  · rename_i cols hb
    have hcols : ∀ kv' : String × List PyVal, kv' ∈ cols →
        kv'.2.length = rows.length := by
      unfold buildColumns at hb
      split at hb
      · exact Except.noConfusion hb
      · rename_i mets hmets
        split at hb
        · exact Except.noConfusion hb
        · rename_i acc₁ hinit₁
          split at hb
          · exact Except.noConfusion hb
          · rename_i dimsv hdims
            split at hb
            · exact Except.noConfusion hb
            · rename_i cols₀ types hinit₂
              simp only [mkRequest] at hmets hdims
              by_cases hme : metrics = []
              · rw [if_pos hme] at hmets
                exact Option.noConfusion hmets
              rw [if_neg hme] at hmets
              injection hmets with hmets
              subst hmets
              by_cases hdi : dims = []
              · rw [if_pos hdi] at hdims
                exact Option.noConfusion hdims
              rw [if_neg hdi] at hdims
              injection hdims with hdims
              subst hdims
              have hinit : initColumns ms (metrics ++ dims) ([], []) =
                  .ok (cols₀, types) := by
                rw [initColumns_append, hinit₁]
                exact hinit₂
              obtain ⟨i1, i2⟩ :=
                initColumns_ok (metrics ++ dims) ([], []) (cols₀, types) hinit
              obtain ⟨p1, p2⟩ := processRows_ok hnd rows cols₀ cols hb
              intro kv' hkv'
              have hndk : (keysOf cols).Nodup := by
                rw [p2]
                exact i2 (by simp [keysOf])
              have hget : dictGet cols kv'.1 = some kv'.2 :=
                dictGet_of_mem_of_nodup cols hndk hkv'
              have hk0 : kv'.1 ∈ keysOf cols₀ := by
                rw [← p2, ← dictGet_isSome_iff_mem_keys, hget]
                rfl
              have hmem_names : kv'.1 ∈ metrics ++ dims := by
                by_contra hno
                have hi := i1 kv'.1
                rw [if_neg hno] at hi
                simp only [dictGet] at hi
                rw [← dictGet_isSome_iff_mem_keys, hi] at hk0
                simp at hk0
              have hinit_get : dictGet cols₀ kv'.1 = some [] := by
                rw [i1 kv'.1, if_pos hmem_names]
              obtain ⟨col', hcol', hlen⟩ := p1 kv'.1 hmem_names [] hinit_get
              rw [hget] at hcol'
              injection hcol' with hcol'
              rw [hcol', hlen]
              simp
    split at hok
    · exact Except.noConfusion hok
    · rename_i nm hnm
      by_cases hnil : nm = []
      · rw [if_pos hnil] at hok
        injection hok with hok
        subst hok
        exact hcols kv hkv
      · rw [if_neg hnil] at hok
        rcases applyMapping_mem_src cols [] out hok kv hkv with hacc | ⟨k₀, hk₀, _⟩
        · exact absurd hacc (List.not_mem_nil kv)
        · exact hcols (k₀, kv.2) hk₀

/-- Witness for C9 (amended) on a one-metric, one-dimension, one-row
request whose columns are renamed to "M" and "D": the returned "M" column
has exactly one entry. -/
theorem columnar_shape_invariant_witness :
    ((("M" : String), [PyVal.float 1]).2 : List PyVal).length =
      ([[(("m" : String), PyVal.float 1), (("d" : String), PyVal.str "a")]] :
        List Row).length :=
  columnar_shape_invariant ["m"] ["d"] (some [("m", "M"), ("d", "D")])
    [⟨"Lm", "m", "float"⟩, ⟨"Ld", "d", "string"⟩]
    [[("m", PyVal.float 1), ("d", PyVal.str "a")]]
    [("M", [PyVal.float 1]), ("D", [PyVal.str "a"])] ("M", [PyVal.float 1])
    (by decide) (by rfl) (by decide)

/-- Counterexample to C9 as stated: requesting the metric name "m" twice
is accepted by normalization, but column "m" then holds two entries for
the single source row while column "d" holds one — the columns are neither
all of equal length nor one-entry-per-row. -/
theorem columnar_shape_counterexample :
    requestResultToDict
        (mkRequest (some ["m", "m"]) (some ["d"]) (some [("m", "m"), ("d", "d")]))
        [⟨"Lm", "m", "float"⟩, ⟨"Ld", "d", "string"⟩]
        [[("m", PyVal.float 1), ("d", PyVal.str "a")]] =
      Except.ok [("m", [PyVal.float 1, PyVal.float 1]), ("d", [PyVal.str "a"])] ∧
    ¬ ∀ kv ∈ [("m", [PyVal.float 1, PyVal.float 1]), ("d", [PyVal.str "a"])],
        (kv.2 : List PyVal).length =
          ([[("m", PyVal.float 1), ("d", PyVal.str "a")]] : List Row).length :=
  ⟨rfl, by decide⟩
